import Mathlib

/-!
Verification of the lodge LR parser generator.

Shallow embedding of the core of the repository:
* `src/parser/ordered_set.py`  — insertion-ordered set (`OrderedSet`)
* `src/parser/grammar/grammar.py` — `GrammarRule`, `Grammar`, FIRST/FOLLOW
* `src/parser/parser/table.py` — `StateItem`, `State` (closure), `ParseTable`
* `src/parser/parser/parser.py` — `ParseNode`, the stack-machine `Parser`

Python's `OrderedSet` is a dict with `None` values, i.e. a duplicate-free
list of keys in first-insertion order.  We model it as a `List` together
with the insertion operation `osAdd` that appends only new elements;
`OrderedSet.__eq__` compares `list(self.data) == list(other.data)`,
i.e. plain list equality, which we keep as-is.

Recursions whose termination Python obtains from visited-set growth are
given an explicit fuel parameter; every theorem either supplies enough
fuel or proves the statement for all fuel values.
-/

namespace Lodge

/-- Python `OrderedSet.add`: insert at the end unless already present
(dict assignment `self.data[element] = None` keeps the old slot). -/
def osAdd {α : Type} [DecidableEq α] (l : List α) (x : α) : List α :=
  if x ∈ l then l else l ++ [x]

/-- Python `OrderedSet.update`: insert each element of `xs` in order. -/
def osUpdate {α : Type} [DecidableEq α] (l : List α) (xs : List α) : List α :=
  xs.foldl osAdd l

/-- Python `OrderedSet.union` (`|`): copy the left set, then update with the right. -/
def osUnion {α : Type} [DecidableEq α] (a b : List α) : List α :=
  osUpdate a b

/-- Python `OrderedSet.difference` (`-`): keep, in order, elements not in `b`. -/
def osDiff {α : Type} [DecidableEq α] (a b : List α) : List α :=
  a.filter (fun x => x ∉ b)

/-- Assoc-list lookup, modelling Python `dict` key lookup. -/
def assocFind {κ α : Type} [DecidableEq κ] (m : List (κ × α)) (k : κ) : Option α :=
  (m.find? (fun p => p.1 = k)).map Prod.snd

/-- Python `dict` assignment `m[k] = v`: overwrite in place if the key is
present (insertion order preserved), otherwise append. -/
def assocSet {κ α : Type} [DecidableEq κ] (m : List (κ × α)) (k : κ) (v : α) :
    List (κ × α) :=
  if (m.find? (fun p => p.1 = k)).isSome then
    m.map (fun p => if p.1 = k then (k, v) else p)
  else
    m ++ [(k, v)]

/-- Source `GrammarRule`: head nonterminal and body symbol list (grammar.py). -/
structure GrammarRule where
  head : String
  body : List String
  deriving DecidableEq, Repr

/-- Source `GrammarRule.__eq__`: structural over head and body. -/
def grammarRuleEq (a b : GrammarRule) : Bool :=
  a.head == b.head && a.body == b.body

/-- Python `hash` applied to a list value: lists are unhashable, the call
raises `TypeError`; modelled as `none`. -/
def pyHashList {α : Type} (_l : List α) : Option Nat :=
  none

/-- Source `GrammarRule.__hash__` is `hash(self.head) ^ hash(self.body)`.
`self.body` is a Python `list`, so `hash(self.body)` raises `TypeError`
before the xor is taken; the string-hash function is abstract. -/
def grammarRuleHash (strHash : String → Nat) (r : GrammarRule) : Option Nat :=
  (pyHashList r.body).map (fun hb => strHash r.head ^^^ hb)

/-- Source `Grammar`: rules plus the derived data computed in `Grammar.__init__`
(`_read_file` minus the file I/O, then `_populate_first_and_follow_sets`). -/
structure Grammar where
  rules : List GrammarRule
  start_symbol : String
  nonterminals : List String
  terminals : List String
  first_sets : List (String × List String)
  follow_sets : List (String × List String)
  deriving Repr

/-- Source `Grammar.get_rules_by_head`: the rules headed by `n`, in rule order
(`rule_head_map` records indices in insertion order). -/
def getRulesByHead (rules : List GrammarRule) (n : String) : List GrammarRule :=
  rules.filter (fun r => r.head == n)

/-- Source `Grammar.get_rules_by_body_token`: the rules whose body contains `t`,
in rule order (`rule_body_map` records each rule index once). -/
def getRulesByBodyToken (rules : List GrammarRule) (t : String) : List GrammarRule :=
  rules.filter (fun r => t ∈ r.body)

/-- Loop body of `Grammar._find_first_from_nonterminal_list` (lines
175-181), parametrized by the FIRST-of-symbol function (Python calls
`self._find_first_set`): returns the accumulated set, Python's final
loop index `i`, and the final `current_rule_set`.  Note the source
subtracts the literal string `"epsilon"`, not the marker `"ε"`. -/
def fflGo (firstOf : String → List String → List String) (explored : List String) :
    List String → Nat → List String → List String →
    (List String × Nat × List String)
  | [], i, first, cur => (first, i - 1, cur)
  | t :: rest, i, first, cur =>
    if t ∈ explored then (first, i, cur)
    else
      let cur' := firstOf t (explored ++ [t])
      let first' := osUpdate first (osDiff cur' ["epsilon"])
      if "ε" ∈ cur' then fflGo firstOf explored rest (i + 1) first' cur'
      else (first', i, cur')

/-- Source `Grammar._find_first_from_nonterminal_list` (lines 169-186),
parametrized like `fflGo`: FIRST of a symbol sequence.  Empty sequence
yields `{ε}`; otherwise run the loop and add `"ε"` when the loop reached
the last index with ε in the final `current_rule_set`. -/
def findFirstFromListF (firstOf : String → List String → List String)
    (tokenList : List String) (explored : List String) : List String :=
  match tokenList with
  | [] => ["ε"]
  | _ =>
    let r := fflGo firstOf explored tokenList 0 [] []
    if r.2.1 = tokenList.length - 1 && "ε" ∈ r.2.2 then osAdd r.1 "ε"
    else r.1

/-- Source `Grammar._find_first_set` (grammar.py lines 126-141), reading the
memo table `first_sets` (`FS`).  Terminals yield themselves; nonterminals
union the sequence-FIRST of each of their rule bodies.  The mutual
recursion with `_find_first_from_nonterminal_list` (which Python bounds
by growth of `explored_tokens`) is bounded by fuel. -/
def findFirstSet (rules : List GrammarRule) (terminals : List String)
    (FS : List (String × List String)) : Nat → String → List String → List String
  | 0, _, _ => []
  | fuel + 1, token, explored =>
    if token ∈ terminals then [token]
    else
      match assocFind FS token with
      | some s => s
      | none =>
        (getRulesByHead rules token).foldl
          (fun acc r => osUpdate acc
            (findFirstFromListF
              (fun t e => findFirstSet rules terminals FS fuel t e)
              r.body explored)) []

/-- Source `Grammar._find_first_from_nonterminal_list` at a given recursion
depth: the sequence-FIRST whose symbol-FIRST calls are fueled. -/
def findFirstFromList (rules : List GrammarRule) (terminals : List String)
    (FS : List (String × List String)) (fuel : Nat) (tokenList : List String)
    (explored : List String) : List String :=
  findFirstFromListF (fun t e => findFirstSet rules terminals FS fuel t e)
    tokenList explored

/-- Source `Grammar._find_follow_set` (lines 143-167), threading the mutable
`follow_sets` map (`FLS`); the start symbol is special-cased and its
entry is written into the map.  Only the first occurrence of `token` in
a rule body is used (`rule.body.index(token)`). -/
def findFollowSet (rules : List GrammarRule) (terminals : List String)
    (startSymbol : String) (FS : List (String × List String)) (fuel : Nat)
    (token : String) (explored : List String)
    (FLS : List (String × List String)) :
    List String × List (String × List String) :=
  match fuel with
  | 0 => ([], FLS)
  | fuel + 1 =>
    if token = startSymbol then
      (["$"], assocSet FLS token ["$"])
    else
      match assocFind FLS token with
      | some s => (s, FLS)
      | none =>
        (getRulesByBodyToken rules token).foldl
          (fun (acc : List String × List (String × List String)) r =>
            if token ∉ r.body then acc
            else
              let tokenIndex := r.body.indexOf token
              let firstInRest :=
                findFirstFromList rules terminals FS fuel
                  (r.body.drop (tokenIndex + 1)) []
              let fset := osUpdate acc.1 (osDiff firstInRest ["ε"])
              if "ε" ∈ firstInRest then
                if r.head ∉ explored then
                  let hf := findFollowSet rules terminals startSymbol FS fuel
                    r.head (explored ++ [r.head]) acc.2
                  (osUpdate fset hf.1, hf.2)
                else (fset, acc.2)
              else (fset, acc.2))
          ([], FLS)

/-- One body of `in_order_traverse` (lines 108-118): recurse into unvisited
body tokens of every rule headed by `token`, then memoize FIRST and FOLLOW
for `token`.  The maps are threaded; `visited` is per-path. -/
def inOrderTraverse (rules : List GrammarRule) (terminals : List String)
    (startSymbol : String) (fuel : Nat) (token : String) (visited : List String)
    (maps : List (String × List String) × List (String × List String)) :
    List (String × List String) × List (String × List String) :=
  match fuel with
  | 0 => maps
  | fuel + 1 =>
    if token ∈ terminals then maps
    else
      let maps1 :=
        (getRulesByHead rules token).foldl
          (fun acc r =>
            r.body.foldl
              (fun acc2 bt =>
                if bt ∉ visited then
                  inOrderTraverse rules terminals startSymbol fuel bt
                    (osUnion visited [bt]) acc2
                else acc2)
              acc)
          maps
      let fs := findFirstSet rules terminals maps1.1 fuel token []
      let maps2 := (assocSet maps1.1 token fs, maps1.2)
      let fl := findFollowSet rules terminals startSymbol maps2.1 fuel token [] maps2.2
      (maps2.1, assocSet fl.2 token fl.1)

/-- Derived symbol sets of `_read_file` (lines 82-89): nonterminals are the
rule heads in order; terminals start with `"$"`, take every body token in
order, then subtract the nonterminals. -/
def grammarNonterminals (rules : List GrammarRule) : List String :=
  rules.foldl (fun acc r => osAdd acc r.head) []

def grammarTerminals (rules : List GrammarRule) : List String :=
  osDiff (rules.foldl (fun acc r => osUpdate acc r.body) ["$"])
    (grammarNonterminals rules)

/-- Source `Grammar.__init__` from an already-split rule list: derived sets, the
start symbol (head of the first rule), and the FIRST/FOLLOW population.
`in_order_traverse` is seeded with `OrderedSet(self.start_symbol)`, which
iterates the *characters* of the start symbol string. -/
def mkGrammar (rules : List GrammarRule) (fuel : Nat) : Grammar :=
  let nts := grammarNonterminals rules
  let ts := grammarTerminals rules
  let start := match rules with
    | [] => ""
    | r :: _ => r.head
  let visited0 := osUpdate ([] : List String)
    (start.data.map (fun c => String.mk [c]))
  let maps := inOrderTraverse rules ts start fuel start visited0 ([], [])
  { rules := rules
    start_symbol := start
    nonterminals := nts
    terminals := ts
    first_sets := maps.1
    follow_sets := maps.2 }

/-- Source `StateItem` (table.py lines 5-22): rule with a dot position and a
lookahead tuple.  `__eq__`/`__hash__` are structural over all four
fields (the hash pre-check cannot change the relation). -/
structure StateItem where
  head : String
  body : List String
  follow : List String
  position : Nat
  deriving DecidableEq, Repr

/-- Source `StateItem.next_token`: the body symbol at the dot, if any. -/
def nextToken (it : StateItem) : Option String :=
  it.body.get? it.position

/-- Source `State`: an `OrderedSet` of items, closed at construction. -/
structure StateL where
  items : List StateItem
  deriving DecidableEq, Repr

/-- Source `State.__eq__`: `OrderedSet.__eq__` compares the key lists, so State
equality is item-list equality, sensitive to insertion order. -/
def stateEq (a b : StateL) : Bool :=
  a.items == b.items

/-- Source `State.__hash__`: xor of the item hashes, for an arbitrary item-hash
function (Python string hashes are per-process). -/
def stateHash (itemHash : StateItem → Nat) (s : StateL) : Nat :=
  s.items.foldl (fun h it => h ^^^ itemHash it) 0

/-- The follow set recorded for a nonterminal: `grammar.follow_sets[n]`
(total here; Python raises `KeyError` when the entry is absent). -/
def followOf (g : Grammar) (n : String) : List String :=
  (assocFind g.follow_sets n).getD []

/-- Source `State._close_helper` (table.py lines 76-89): expand the item's next
symbol when it is a nonterminal, adding (`for rule in
...get_rules_by_head(next_token)`) one dot-0 item per rule headed by it
with lookahead `follow_sets[N]`, recursing into each new item not on the
current path.  Python's termination comes from growth of the `visited`
path inside the finite dot-0 item universe; here the recursion depth is
fuel. -/
def closeHelper (g : Grammar) : Nat → StateItem → List StateItem →
    List StateItem → List StateItem
  | 0, _, _, items => items
  | fuel + 1, item, visited, items =>
    match nextToken item with
    | Option.none => items
    | some nt =>
      if nt ∈ g.terminals then items
      else
        let followSet := followOf g nt
        (getRulesByHead g.rules nt).foldl
          (fun acc r =>
            let newItem : StateItem := ⟨r.head, r.body, followSet, 0⟩
            let acc1 := osAdd acc newItem
            if newItem ∈ visited then acc1
            else closeHelper g fuel newItem (visited ++ [newItem]) acc1)
          items

/-- The loop body of `_close_helper` over one rule of the expanded
nonterminal, named for use in proofs; `closeHelper` folds it. -/
def chStep (g : Grammar) (fuel : Nat) (visited : List StateItem)
    (followSet : List String) (acc : List StateItem) (r : GrammarRule) :
    List StateItem :=
  if (⟨r.head, r.body, followSet, 0⟩ : StateItem) ∈ visited then
    osAdd acc ⟨r.head, r.body, followSet, 0⟩
  else
    closeHelper g fuel ⟨r.head, r.body, followSet, 0⟩
      (visited ++ [⟨r.head, r.body, followSet, 0⟩])
      (osAdd acc ⟨r.head, r.body, followSet, 0⟩)

/-- The per-seed step of `State.__init__`'s closure loop (table.py lines
71-73), named for use in proofs. -/
def seedStep (g : Grammar) (acc : List StateItem) (it : StateItem) :
    List StateItem :=
  if it.position < it.body.length then
    closeHelper g (g.rules.length + 1) it [] acc
  else acc

/-- Source `State.__init__` (table.py lines 65-73): dedup the seed items into an
`OrderedSet`, then run `_close_helper` for each seed item whose dot is
not at the end, with the recursion fuel `rules.length + 1` (one more than
the depth the visited-path bound allows). -/
def mkState (g : Grammar) (seeds : List StateItem) : StateL :=
  let items0 := seeds.foldl osAdd []
  ⟨items0.foldl (seedStep g) items0⟩

/-- Source `State.get_transition_result` (table.py lines 91-98): advance the dot
past `token` on every item that can, and close the result. -/
def transitionResult (g : Grammar) (s : StateL) (token : String) : StateL :=
  mkState g
    ((s.items.filter
        (fun it => it.position < it.body.length &&
          it.body.getD it.position "" == token)).map
      (fun it => ⟨it.head, it.body, it.follow, it.position + 1⟩))

/-- Action-table entries `("shft", n)`, `("red", head, n)`, `("acc",)`;
`err` is the absent-entry default `("err",)`. -/
inductive ActionT where
  | shft (goto : Nat)
  | red (head : String) (bodyLen : Nat)
  | acc
  | err
  deriving DecidableEq, Repr

/-- Source `ParseTable`: discovery-ordered states, state ids, goto table and
action table (table.py lines 121-149). -/
structure ParseTableL where
  states : List StateL
  state_ids : List (StateL × Nat)
  goto_table : List ((Nat × String) × Nat)
  action_table : List ((Nat × String) × ActionT)
  deriving Repr

/-- State-keyed dict lookup: Python compares by hash then `State.__eq__`,
i.e. by item-list equality. -/
def stateIdsFind (m : List (StateL × Nat)) (s : StateL) : Option Nat :=
  (m.find? (fun p => stateEq p.1 s)).map Prod.snd

/-- The goto-population loop of `ParseTable._generate_table` (lines
167-184): breadth-first over a queue, assigning sequential ids to
structurally new states and recording every transition. -/
def genLoop (g : Grammar) (tokens : List String) :
    Nat → List StateL → List StateL → List (StateL × Nat) → Nat →
    List ((Nat × String) × Nat) →
    (List StateL × List (StateL × Nat) × List ((Nat × String) × Nat))
  | 0, _, states, ids, _, gotoT => (states, ids, gotoT)
  | _ + 1, [], states, ids, _, gotoT => (states, ids, gotoT)
  | fuel + 1, cur :: queue, states, ids, nextId, gotoT =>
    let states1 := states ++ [cur]
    let step := tokens.foldl
      (fun (acc : List StateL × List (StateL × Nat) × Nat ×
          List ((Nat × String) × Nat)) token =>
        let (q, idm, nid, gt) := acc
        let newState := transitionResult g cur token
        if newState.items.length = 0 then acc
        else
          let (q1, idm1, nid1) :=
            if (stateIdsFind idm newState).isSome then (q, idm, nid)
            else (q ++ [newState], idm ++ [(newState, nid)], nid + 1)
          let curId := (stateIdsFind idm1 cur).getD 0
          let newId := (stateIdsFind idm1 newState).getD 0
          (q1, idm1, nid1, assocSet gt (curId, token) newId))
      (queue, ids, nextId, gotoT)
    genLoop g tokens fuel step.1 states1 step.2.1 step.2.2.1 step.2.2.2

/-- The action-population loop of `_generate_table` (lines 186-200):
complete start items yield `acc` on `"$"`; other complete items yield
`red` on each lookahead; items whose next symbol has a goto entry yield
`shft` keyed by that (possibly nonterminal) symbol. -/
def actionGen (g : Grammar) (ids : List (StateL × Nat))
    (gotoT : List ((Nat × String) × Nat)) :
    List ((Nat × String) × ActionT) :=
  ids.foldl
    (fun acc (p : StateL × Nat) =>
      p.1.items.foldl
        (fun acc2 it =>
          if it.position = it.body.length then
            if it.head = g.start_symbol then
              assocSet acc2 (p.2, "$") ActionT.acc
            else
              it.follow.foldl
                (fun acc3 f =>
                  assocSet acc3 (p.2, f) (ActionT.red it.head it.body.length))
                acc2
          else
            let nt := it.body.getD it.position ""
            match assocFind gotoT (p.2, nt) with
            | some tgt => assocSet acc2 (p.2, nt) (ActionT.shft tgt)
            | none => acc2)
        acc)
    []

/-- Source `ParseTable.__init__` / `_generate_table`: start state is the closure
of the first start rule with lookahead `follow_sets[start]`; explore with
the symbol order `terminals.union(nonterminals)`. -/
def mkParseTable (g : Grammar) (fuel : Nat) : ParseTableL :=
  let startRule := (getRulesByHead g.rules g.start_symbol).getD 0 ⟨"", []⟩
  let startItem : StateItem :=
    ⟨startRule.head, startRule.body, followOf g g.start_symbol, 0⟩
  let s0 := mkState g [startItem]
  let tokens := osUnion g.terminals g.nonterminals
  let r := genLoop g tokens fuel [s0] [] [(s0, 0)] 1 []
  { states := r.1
    state_ids := r.2.1
    goto_table := r.2.2
    action_table := actionGen g r.2.1 r.2.2 }

/-- Source `ParseNode` trees plus the `None` sentinel that sits in the initial
stack entry (parser.py). -/
inductive PyTree where
  | none
  | node (token : String) (children : List PyTree)

mutual

/-- Left-to-right leaf sequence of a parse tree; a node with no children
is a leaf labelled by its token, the `None` sentinel has no leaves. -/
def leaves : PyTree → List String
  | .none => []
  | .node tok cs =>
    match cs with
    | [] => [tok]
    | _ :: _ => leavesList cs

def leavesList : List PyTree → List String
  | [] => []
  | t :: ts => leaves t ++ leavesList ts

end

/-- A stack state slot: `int` state ids, or the string pushed when a
reduce's goto lookup returned a non-shift tuple (dynamic typing). -/
abbrev StVal := Sum Nat String

/-- One stack entry `(node-or-None, state)`. -/
abbrev StackEntry := PyTree × StVal

/-- Result of `Parser.__call__`: an accepted tree, the `"Error"` return
value, an uncaught Python exception (`IndexError`), or fuel exhaustion. -/
inductive PResult where
  | tree (t : PyTree)
  | failure
  | crash
  | timeout

/-- Lookup `self.table[state, token]`: dict `.get` with default `("err",)`; a
non-`int` state never matches an `(int, str)` key. -/
def actionOf (tbl : ParseTableL) (st : StVal) (tok : String) : ActionT :=
  match st with
  | .inl n => (assocFind tbl.action_table (n, tok)).getD ActionT.err
  | .inr _ => ActionT.err

/-- Python `stack[-n:]`: the last `n` entries for `1 ≤ n ≤ len`, the whole
list when `n = 0` (since `-0 == 0`) or when `n > len`. -/
def pyLastSlice {α : Type} (n : Nat) (l : List α) : List α :=
  if n = 0 then l else l.drop (l.length - n)

/-- Python `stack[:-n]`: all but the last `n` entries for `1 ≤ n ≤ len`,
the empty list when `n = 0` or when `n > len`. -/
def pyDropLastSlice {α : Type} (n : Nat) (l : List α) : List α :=
  if n = 0 then [] else l.take (l.length - n)

/-- The pop of a reduce step (parser.py lines 46-47): the popped nodes in
original order, and the remaining stack. -/
def redStep (stack : List StackEntry) (n : Nat) :
    List PyTree × List StackEntry :=
  ((pyLastSlice n stack).map Prod.fst, pyDropLastSlice n stack)

/-- Indexing `t[1]` on an action tuple: `("shft", g)[1]` is the int `g`,
`("red", head, n)[1]` is the string `head`, one-element tuples raise
`IndexError`. -/
def pyIndex1 : ActionT → Option StVal
  | .shft gt => some (.inl gt)
  | .red h _ => some (.inr h)
  | .acc => Option.none
  | .err => Option.none

/-- The lookahead: `string[0] if len(string) > 0 else "$"`. -/
def curToken (input : List String) : String :=
  match input with
  | [] => "$"
  | t :: _ => t

/-- The `while True` loop of `Parser.__call__` (parser.py lines 26-58),
one constructor branch per action kind; `crash` marks the places where
the Python code would raise `IndexError`. -/
def run (tbl : ParseTableL) (startSymbol : String) :
    Nat → List StackEntry → List String → PResult
  | 0, _, _ => .timeout
  | fuel + 1, stack, input =>
    match stack.getLast? with
    | Option.none => .crash
    | some top =>
      let tok := curToken input
      match actionOf tbl top.2 tok with
      | .shft gt =>
        run tbl startSymbol fuel (stack ++ [(.node tok [], .inl gt)]) (input.drop 1)
      | .red head n =>
        let popped := redStep stack n
        let newNode := PyTree.node head popped.1
        match (pyDropLastSlice n stack).getLast? with
        | Option.none => .crash
        | some newTop =>
          match pyIndex1 (actionOf tbl newTop.2 head) with
          | Option.none => .crash
          | some gv =>
            run tbl startSymbol fuel (popped.2 ++ [(newNode, gv)]) input
      | .acc =>
        match stack.get? 1 with
        | Option.none => .crash
        | some e => .tree (.node startSymbol [e.1])
      | .err => .failure

/-- Source `Parser.__init__` plus `__call__`: build the table, then run the stack
machine from the sentinel stack `[(None, 0)]`. -/
def parse (g : Grammar) (tableFuel runFuel : Nat) (input : List String) :
    PResult :=
  run (mkParseTable g tableFuel) g.start_symbol runFuel
    [(PyTree.none, Sum.inl 0)] input

/-- Does the parse result carry an accepted tree? -/
def isTree : PResult → Bool
  | .tree _ => true
  | _ => false

/-- The leaf sequence of an accepted tree, if any. -/
def resultLeaves : PResult → Option (List String)
  | .tree t => some (leaves t)
  | _ => Option.none

/-- The one-step expansions of an item under closure: when the symbol at
the dot is a nonterminal `nt`, one dot-0 item per rule headed by `nt`
with lookahead `follow_sets[nt]`; terminal-next and completed items
expand to nothing. -/
def itemExp (g : Grammar) (it : StateItem) : List StateItem :=
  match nextToken it with
  | Option.none => []
  | some nt =>
    if nt ∈ g.terminals then []
    else (getRulesByHead g.rules nt).map (fun r => ⟨r.head, r.body, followOf g nt, 0⟩)

/-- An item list closed under `itemExp`, except that items satisfying the
excuse predicate `E` may still be unexpanded (used for the items on the
active closure path). -/
def ClosedExcept (g : Grammar) (E : StateItem → Prop) (items : List StateItem) : Prop :=
  ∀ it ∈ items, ¬ E it → ∀ x ∈ itemExp g it, x ∈ items

/-- An item list closed under `itemExp`. -/
def ClosedItems (g : Grammar) (items : List StateItem) : Prop :=
  ∀ it ∈ items, ∀ x ∈ itemExp g it, x ∈ items

/-- The dot-0 item the closure builds from a grammar rule; every item the
closure ever adds has this shape. -/
def dItem (g : Grammar) (r : GrammarRule) : StateItem :=
  ⟨r.head, r.body, followOf g r.head, 0⟩

/-- All dot-0 items of the grammar: the universe the closure path
(`visited`) lives in, of size at most `g.rules.length`. -/
def dItems (g : Grammar) : List StateItem :=
  g.rules.map (dItem g)

/-- Least set of items containing the base predicate `P` and closed under
nonterminal expansion: the mathematical closure the construction is
claimed to compute. -/
inductive InClos (g : Grammar) (P : StateItem → Prop) : StateItem → Prop where
  | base {x : StateItem} : P x → InClos g P x
  | step {it : StateItem} {nt : String} {r : GrammarRule} :
      InClos g P it → nextToken it = some nt → nt ∉ g.terminals →
      r ∈ getRulesByHead g.rules nt →
      InClos g P ⟨r.head, r.body, followOf g nt, 0⟩

/-- Grammars on which the Python closure cannot raise: every rule body is
nonempty and made of symbols that are terminals or rule heads, and every
rule head has a `follow_sets` entry (it is reachable). -/
def wfGrammar (g : Grammar) : Bool :=
  g.rules.all (fun r =>
    !r.body.isEmpty &&
    r.body.all (fun s => s ∈ g.terminals || g.rules.any (fun r2 => r2.head == s)) &&
    (assocFind g.follow_sets r.head).isSome)

/-- Seed items whose bodies use only grammar symbols, so the Python
closure of a `State` built from them cannot raise `KeyError`. -/
def wfSeeds (g : Grammar) (seeds : List StateItem) : Bool :=
  seeds.all (fun it =>
    it.body.all (fun s => s ∈ g.terminals || g.rules.any (fun r2 => r2.head == s)))

/-- Example grammar for C2: `S -> A b`, `A -> a`, `A -> ε`. -/
def gEps : Grammar :=
  mkGrammar [⟨"S", ["A", "b"]⟩, ⟨"A", ["a"]⟩, ⟨"A", ["ε"]⟩] 50

/-- Example grammar for C3: `S -> X a X b`, `X -> c` — the nonterminal `X`
occurs twice in the first rule body. -/
def gTwice : Grammar :=
  mkGrammar [⟨"S", ["X", "a", "X", "b"]⟩, ⟨"X", ["c"]⟩] 50

/-- Example grammar for C5: `S -> a S`, `S -> a`. -/
def gRec : Grammar :=
  mkGrammar [⟨"S", ["a", "S"]⟩, ⟨"S", ["a"]⟩] 50

/-- Example grammar for C6: `S -> A`, `A -> a`. -/
def gChain : Grammar :=
  mkGrammar [⟨"S", ["A"]⟩, ⟨"A", ["a"]⟩] 50

/-- Example grammar for C1/C9 witnesses: `S -> a`, `S -> b`. -/
def gTwo : Grammar :=
  mkGrammar [⟨"S", ["a"]⟩, ⟨"S", ["b"]⟩] 50

/-- First seed item over `gTwo`. -/
def itemA : StateItem := ⟨"S", ["a"], ["$"], 0⟩

/-- Second seed item over `gTwo`. -/
def itemB : StateItem := ⟨"S", ["b"], ["$"], 0⟩

/-- A table with no entries, for exercising the error branch. -/
def emptyTable : ParseTableL := ⟨[], [], [], []⟩

/-- A table whose only entry is a reduce with recorded body length 0,
for exercising the epsilon-reduce stack behaviour. -/
def redTable : ParseTableL := ⟨[], [], [], [((0, "$"), ActionT.red "S" 0)]⟩

/-! ## Basic lemmas about the ordered-set operations -/

theorem mem_osAdd {α : Type} [DecidableEq α] {l : List α} {a x : α} :
    x ∈ osAdd l a ↔ x ∈ l ∨ x = a := by
  unfold osAdd
  split
  · constructor
    · exact fun h => Or.inl h
    · rintro (h | rfl)
      · exact h
      · assumption
  · simp

theorem subset_osAdd {α : Type} [DecidableEq α] (l : List α) (a : α) :
    l ⊆ osAdd l a := by
  intro x hx
  exact mem_osAdd.mpr (Or.inl hx)

theorem self_mem_osAdd {α : Type} [DecidableEq α] (l : List α) (a : α) :
    a ∈ osAdd l a :=
  mem_osAdd.mpr (Or.inr rfl)

theorem osAdd_eq_of_mem {α : Type} [DecidableEq α] {l : List α} {a : α}
    (h : a ∈ l) : osAdd l a = l := by
  unfold osAdd
  simp [h]

theorem nodup_osAdd {α : Type} [DecidableEq α] {l : List α} (a : α)
    (h : l.Nodup) : (osAdd l a).Nodup := by
  unfold osAdd
  split
  · exact h
  · next hna =>
    refine List.Nodup.append h (List.nodup_singleton a) ?_
    intro x hx hxa
    rw [List.mem_singleton] at hxa
    subst hxa
    exact hna hx

theorem mem_foldl_osAdd {α : Type} [DecidableEq α] (seeds : List α) :
    ∀ (l : List α) (x : α), x ∈ seeds.foldl osAdd l ↔ x ∈ l ∨ x ∈ seeds := by
  induction seeds with
  | nil => simp [List.foldl]
  | cons s rest ih =>
    intro l x
    rw [List.foldl_cons, ih, mem_osAdd]
    constructor
    · rintro ((h | rfl) | h)
      · exact Or.inl h
      · exact Or.inr (List.mem_cons_self _ _)
      · exact Or.inr (List.mem_cons_of_mem _ h)
    · rintro (h | h)
      · exact Or.inl (Or.inl h)
      · rcases List.mem_cons.mp h with rfl | h2
        · exact Or.inl (Or.inr rfl)
        · exact Or.inr h2

theorem nodup_foldl_osAdd {α : Type} [DecidableEq α] (seeds : List α) :
    ∀ (l : List α), l.Nodup → (seeds.foldl osAdd l).Nodup := by
  induction seeds with
  | nil => exact fun l h => h
  | cons s rest ih =>
    intro l h
    exact ih _ (nodup_osAdd s h)

theorem foldl_osAdd_of_nodup {α : Type} [DecidableEq α] (l : List α)
    (h : l.Nodup) : l.foldl osAdd [] = l := by
  suffices H : ∀ (acc : List α), l.Nodup → (∀ x ∈ l, x ∉ acc) →
      l.foldl osAdd acc = acc ++ l by
    simpa using H [] h (by simp)
  clear h
  induction l with
  | nil => simp
  | cons a rest ih =>
    intro acc hnd hdisj
    have ha : a ∉ acc := hdisj a (List.mem_cons_self _ _)
    rw [List.foldl_cons]
    have hadd : osAdd acc a = acc ++ [a] := by
      unfold osAdd
      simp [ha]
    have hdisj2 : ∀ x ∈ rest, x ∉ acc ++ [a] := by
      intro x hx
      simp only [List.mem_append, List.mem_singleton]
      rintro (hacc | rfl)
      · exact hdisj x (List.mem_cons_of_mem _ hx) hacc
      · exact (List.nodup_cons.mp hnd).1 hx
    rw [hadd, ih (acc ++ [a]) (List.Nodup.of_cons hnd) hdisj2]
    simp

/-- A `foldl` preserves any invariant its step preserves. -/
theorem foldl_preserve {α β : Type} (f : β → α → β) (Q : β → Prop)
    (h : ∀ b a, Q b → Q (f b a)) :
    ∀ (l : List α) (b : β), Q b → Q (l.foldl f b) := by
  intro l
  induction l with
  | nil => exact fun b hb => hb
  | cons a rest ih => exact fun b hb => ih _ (h b a hb)

theorem assocSet_mem {κ α : Type} [DecidableEq κ] {m : List (κ × α)}
    {k : κ} {v : α} {e : κ × α} (h : e ∈ assocSet m k v) :
    e ∈ m ∨ e = (k, v) := by
  unfold assocSet at h
  split at h
  · rcases List.mem_map.mp h with ⟨p, hp, hpe⟩
    by_cases hk : p.1 = k
    · simp [hk] at hpe
      exact Or.inr hpe.symm
    · simp [hk] at hpe
      exact Or.inl (hpe ▸ hp)
  · rcases List.mem_append.mp h with h1 | h1
    · exact Or.inl h1
    · simp at h1
      exact Or.inr h1

/-- Every `acc` entry the action-population loop writes is keyed by the
end marker `"$"` (table.py line 191 is the only `("acc",)` write). -/
theorem actionGen_acc_key (g : Grammar) (ids : List (StateL × Nat))
    (gotoT : List ((Nat × String) × Nat)) :
    ∀ e ∈ actionGen g ids gotoT, e.2 = ActionT.acc → e.1.2 = "$" := by
  unfold actionGen
  refine foldl_preserve _
    (fun (m : List ((Nat × String) × ActionT)) =>
      ∀ e ∈ m, e.2 = ActionT.acc → e.1.2 = "$")
    ?_ ids [] (by simp)
  intro m p hm
  refine foldl_preserve _
    (fun (m2 : List ((Nat × String) × ActionT)) =>
      ∀ e ∈ m2, e.2 = ActionT.acc → e.1.2 = "$")
    ?_ p.1.items m hm
  intro m2 it hm2
  by_cases hpos : it.position = it.body.length
  · simp only [hpos, if_true]
    by_cases hhead : it.head = g.start_symbol
    · simp only [hhead, if_true]
      intro e he hacc
      rcases assocSet_mem he with h1 | rfl
      · exact hm2 e h1 hacc
      · rfl
    · simp only [hhead, if_false]
      refine foldl_preserve _
        (fun (m3 : List ((Nat × String) × ActionT)) =>
          ∀ e ∈ m3, e.2 = ActionT.acc → e.1.2 = "$")
        ?_ it.follow m2 hm2
      intro m3 f hm3 e he hacc
      rcases assocSet_mem he with h1 | rfl
      · exact hm3 e h1 hacc
      · cases hacc
  · simp only [hpos, if_false]
    cases hfind : assocFind gotoT (p.2, it.body.getD it.position "") with
    | none => simpa [hfind] using hm2
    | some tgt =>
      simp only [hfind]
      intro e he hacc
      rcases assocSet_mem he with h1 | rfl
      · exact hm2 e h1 hacc
      · cases hacc

/-! ## Claim theorems: evaluation-based claims -/

/-- C2: the claim states that FIRST of a symbol sequence accumulates
`FIRST(symbol) − {ε}` and keeps ε out of the result once a non-nullable
symbol is reached.  On the grammar `S -> A b`, `A -> a`, `A -> ε` the
code computes `FIRST(A b) = {a, ε, b}`: the subtraction at grammar.py
line 179 removes the literal string `"epsilon"` instead of `"ε"`, so ε
from the nullable `A` survives even though `b` is not nullable
(`ε ∉ FIRST(b)`).  The memoized `FIRST(S)` shows the same set. -/
theorem c2_first_list_keeps_epsilon :
    findFirstFromList gEps.rules gEps.terminals gEps.first_sets 50
      ["A", "b"] [] = ["a", "ε", "b"] ∧
    "ε" ∈ findFirstFromList gEps.rules gEps.terminals gEps.first_sets 50
      ["A", "b"] [] ∧
    "ε" ∉ findFirstSet gEps.rules gEps.terminals gEps.first_sets 50 "b" [] ∧
    "ε" ∈ findFirstSet gEps.rules gEps.terminals gEps.first_sets 50 "A" [] ∧
    assocFind gEps.first_sets "S" = some ["a", "ε", "b"] := by
  refine ⟨by decide, by decide, by decide, by decide, by decide⟩

/-- C3: the claim states FOLLOW(X) unions `FIRST(β) − {ε}` over every
occurrence of X in every rule body.  On `S -> X a X b`, `X -> c` the
second occurrence of `X` is followed by `b`, so the claimed union
contains `b`; the code uses `rule.body.index(token)` (grammar.py line
158), which finds only the first occurrence, and computes
`FOLLOW(X) = {a}` without `b`. -/
theorem c3_follow_first_occurrence_only :
    assocFind gTwice.follow_sets "X" = some ["a"] ∧
    "b" ∉ (assocFind gTwice.follow_sets "X").getD [] ∧
    (⟨"S", ["X", "a", "X", "b"]⟩ : GrammarRule) ∈ gTwice.rules ∧
    "b" ∈ gTwice.terminals ∧
    findFirstFromList gTwice.rules gTwice.terminals gTwice.first_sets 50
      ["b"] [] = ["b"] := by
  refine ⟨by decide, by decide, by decide, by decide, by decide⟩

/-- C5: the claim states the leaves of any accepted tree reproduce the
input.  On the grammar `S -> a S`, `S -> a` with input `a a` the engine
accepts (the accept entry of the state holding `S -> a •` fires once the
input is exhausted, with three entries on the stack) and returns the
tree `S(a)` built from `stack[1]` only: its leaf sequence is `a`, not
`a a`. -/
theorem c5_leaves_drop_input :
    isTree (parse gRec 100 100 ["a", "a"]) = true ∧
    resultLeaves (parse gRec 100 100 ["a", "a"]) = some ["a"] ∧
    some ["a"] ≠ some ["a", "a"] := by
  refine ⟨by decide, by decide, by decide⟩

/-- C6 counterexample: the claim states every action-table key pairs a
state with a terminal.  In the table built for `S -> A`, `A -> a` the
item `S -> • A` of state 0 has the nonterminal `A` as next symbol and a
goto entry, so table.py line 197 records a shift action keyed by the
nonterminal `A`. -/
theorem c6_counterexample :
    assocFind (mkParseTable gChain 100).action_table (0, "A") =
      some (ActionT.shft 2) ∧
    "A" ∈ gChain.nonterminals ∧ "A" ∉ gChain.terminals := by
  refine ⟨by decide, by decide, by decide⟩

/-- C6 amended: every key of the action table is a (state id, symbol)
pair; accept entries are always keyed by the end marker `"$"`, but shift
entries are keyed by the item's next symbol, which may be a nonterminal
(as the shift on `A` in the table for `S -> A`, `A -> a` shows). -/
theorem c6_amended :
    (∀ (g : Grammar) (fuel : Nat) (e : (Nat × String) × ActionT),
      e ∈ (mkParseTable g fuel).action_table → e.2 = ActionT.acc →
      e.1.2 = "$") ∧
    assocFind (mkParseTable gChain 100).action_table (0, "A") =
      some (ActionT.shft 2) ∧
    "A" ∈ gChain.nonterminals := by
  refine ⟨?_, by decide, by decide⟩
  intro g fuel e he hacc
  exact actionGen_acc_key g _ _ e he hacc

/-- Witness for the amended C6 theorem: the accept entry of the table
for `S -> A`, `A -> a` is keyed by `"$"`. -/
theorem c6_amended_witness :
    ((2, "$"), ActionT.acc) ∈ (mkParseTable gChain 100).action_table ∧
    (((2, "$"), ActionT.acc) : (Nat × String) × ActionT).1.2 = "$" :=
  ⟨by decide, c6_amended.1 gChain 100 ((2, "$"), ActionT.acc) (by decide) rfl⟩

/-- C7: `GrammarRule.__eq__` is structural over head and body, but
`GrammarRule.__hash__` computes `hash(self.head) ^ hash(self.body)` on
the `list`-valued `body`, and Python lists are unhashable: the hash call
raises `TypeError` for every rule, whatever the string hash is, so no
`GrammarRule` has a defined hash. -/
theorem c7_hash_undefined :
    (∀ a b : GrammarRule, grammarRuleEq a b = true ↔
      a.head = b.head ∧ a.body = b.body) ∧
    (∀ (strHash : String → Nat) (r : GrammarRule),
      grammarRuleHash strHash r = Option.none) := by
  constructor
  · intro a b
    simp [grammarRuleEq]
  · intro f r
    rfl

/-- C8: when the action lookup for the current (state, token) pair finds
no entry, the dict default `("err",)` reaches the final `else` branch and
`Parser.__call__` returns the failure value: a terminating, distinguished
result that carries no tree. -/
theorem c8_missing_entry_fails (tbl : ParseTableL) (startSym : String)
    (fuel : Nat) (input : List String) (stack : List StackEntry)
    (n : Nat) (nd : PyTree)
    (hTop : stack.getLast? = some (nd, Sum.inl n))
    (hNo : assocFind tbl.action_table (n, curToken input) = Option.none) :
    run tbl startSym (fuel + 1) stack input = PResult.failure ∧
    ∀ t, run tbl startSym (fuel + 1) stack input ≠ PResult.tree t := by
  have hrun : run tbl startSym (fuel + 1) stack input = PResult.failure := by
    unfold run
    rw [hTop]
    simp [actionOf, hNo]
  exact ⟨hrun, fun t h => by rw [hrun] at h; cases h⟩

/-- Witness for C8 at a concrete empty table. -/
theorem c8_witness :
    assocFind emptyTable.action_table (0, curToken ["a"]) = Option.none ∧
    run emptyTable "S" 1 [(PyTree.none, Sum.inl 0)] ["a"] = PResult.failure :=
  ⟨rfl, (c8_missing_entry_fails emptyTable "S" 0 ["a"]
    [(PyTree.none, Sum.inl 0)] 0 PyTree.none rfl rfl).1⟩

/-- C10: a reduce with recorded body length `n ≥ 1` (and `n` at most the
stack height) pops exactly the top `n` entries — the popped slice
`stack[-n:]` has length `n` and recombines with `stack[:-n]` to the
original stack.  With `n = 0` the slices are `stack[-0:] = stack` and
`stack[:-0] = []`: the new node's children are the nodes of the whole
stack, the sentinel included, and the remaining stack is empty, so the
engine's subsequent `stack[-1]` goto lookup raises (`crash`). -/
theorem c10_epsilon_reduce (stack : List StackEntry) (n : Nat)
    (tbl : ParseTableL) (startSym : String) (fuel : Nat)
    (input : List String) (nd : PyTree) (st : StVal) (head : String)
    (hTop : stack.getLast? = some (nd, st))
    (hRed : actionOf tbl st (curToken input) = ActionT.red head 0) :
    (1 ≤ n → n ≤ stack.length →
      (redStep stack n).1 = (stack.drop (stack.length - n)).map Prod.fst ∧
      ((redStep stack n).1).length = n ∧
      (redStep stack n).2 ++ pyLastSlice n stack = stack) ∧
    ((redStep stack 0).1 = stack.map Prod.fst ∧ (redStep stack 0).2 = []) ∧
    run tbl startSym (fuel + 1) stack input = PResult.crash := by
  refine ⟨?_, ⟨?_, ?_⟩, ?_⟩
  · intro h1 hle
    have hn0 : n ≠ 0 := by omega
    refine ⟨?_, ?_, ?_⟩
    · simp [redStep, pyLastSlice, hn0]
    · simp only [redStep, pyLastSlice, hn0, if_false, List.length_map,
        List.length_drop]
      omega
    · simp only [redStep, pyLastSlice, pyDropLastSlice, hn0, if_false]
      exact List.take_append_drop _ _
  · simp [redStep, pyLastSlice]
  · simp [redStep, pyDropLastSlice]
  · unfold run
    rw [hTop]
    simp only [hRed]
    have hempty : pyDropLastSlice 0 stack = ([] : List StackEntry) := by
      simp [pyDropLastSlice]
    rw [hempty]
    rfl

/-- Witness for C10: a one-entry stack with a 0-length reduce action —
the popped children are the whole stack and the engine crashes. -/
theorem c10_witness :
    actionOf redTable (Sum.inl 0) (curToken []) = ActionT.red "S" 0 ∧
    run redTable "S" 1 [(PyTree.none, Sum.inl 0)] [] = PResult.crash ∧
    (redStep [(PyTree.none, Sum.inl 0)] 0).2 = [] :=
  ⟨rfl,
    (c10_epsilon_reduce [(PyTree.none, Sum.inl 0)] 1 redTable "S" 0 []
      PyTree.none (Sum.inl 0) "S" rfl rfl).2.2,
    (c10_epsilon_reduce [(PyTree.none, Sum.inl 0)] 1 redTable "S" 0 []
      PyTree.none (Sum.inl 0) "S" rfl rfl).2.1.2⟩

/-- C1 counterexample: the claim states that States built from the same
logical item set in any insertion order compare equal.  Over the grammar
`S -> a`, `S -> b`, the States built from the two orders of the seed
items `[S -> • a, {$}]` and `[S -> • b, {$}]` hold permuted item lists,
yet `State.__eq__` — list equality of the underlying `OrderedSet` key
lists — returns `False`. -/
theorem c1_counterexample :
    (mkState gTwo [itemA, itemB]).items.Perm
      (mkState gTwo [itemB, itemA]).items ∧
    stateEq (mkState gTwo [itemA, itemB]) (mkState gTwo [itemB, itemA]) =
      false := by
  refine ⟨by decide, by decide⟩

/-! ## Closure lemmas -/

theorem closeHelper_succ_eq (g : Grammar) (fuel : Nat) (item : StateItem)
    (vis items : List StateItem) :
    closeHelper g (fuel + 1) item vis items =
      match nextToken item with
      | Option.none => items
      | some nt =>
        if nt ∈ g.terminals then items
        else (getRulesByHead g.rules nt).foldl
          (chStep g fuel vis (followOf g nt)) items := rfl

theorem itemExp_of_none {g : Grammar} {it : StateItem}
    (h : nextToken it = Option.none) : itemExp g it = [] := by
  unfold itemExp
  rw [h]

theorem itemExp_of_terminal {g : Grammar} {it : StateItem} {nt : String}
    (h : nextToken it = some nt) (ht : nt ∈ g.terminals) : itemExp g it = [] := by
  unfold itemExp
  rw [h]
  simp [ht]

theorem itemExp_of_nonterminal {g : Grammar} {it : StateItem} {nt : String}
    (h : nextToken it = some nt) (ht : nt ∉ g.terminals) :
    itemExp g it = (getRulesByHead g.rules nt).map
      (fun r => ⟨r.head, r.body, followOf g nt, 0⟩) := by
  unfold itemExp
  rw [h]
  simp [ht]

theorem mem_rulesByHead {rules : List GrammarRule} {nt : String}
    {r : GrammarRule} (h : r ∈ getRulesByHead rules nt) :
    r.head = nt ∧ r ∈ rules := by
  unfold getRulesByHead at h
  have h2 := List.of_mem_filter h
  exact ⟨by simpa using h2, List.mem_of_mem_filter h⟩

theorem mem_dItems_of_rulesByHead {g : Grammar} {nt : String}
    {r : GrammarRule} (h : r ∈ getRulesByHead g.rules nt) :
    (⟨r.head, r.body, followOf g nt, 0⟩ : StateItem) ∈ dItems g := by
  obtain ⟨hhead, hmem⟩ := mem_rulesByHead h
  unfold dItems
  refine List.mem_map.mpr ⟨r, hmem, ?_⟩
  unfold dItem
  rw [hhead]

theorem subset_closeHelper (g : Grammar) :
    ∀ (fuel : Nat) (item : StateItem) (vis items : List StateItem),
      items ⊆ closeHelper g fuel item vis items := by
  intro fuel
  induction fuel with
  | zero => exact fun item vis items x h => h
  | succ fuel ih =>
    intro item vis items
    rw [closeHelper_succ_eq]
    cases hnt : nextToken item with
    | none => exact fun x h => h
    | some nt =>
      by_cases hterm : nt ∈ g.terminals
      · simp only [hterm, if_true]
        exact fun x h => h
      · simp only [hterm, if_false]
        have hstep : ∀ (acc : List StateItem) (r : GrammarRule),
            acc ⊆ chStep g fuel vis (followOf g nt) acc r := by
          intro acc r
          unfold chStep
          split
          · exact subset_osAdd acc _
          · exact fun x hx =>
              ih _ _ _ (subset_osAdd acc _ hx)
        generalize getRulesByHead g.rules nt = rs
        induction rs generalizing items with
        | nil => exact fun x h => h
        | cons r rest ihr =>
          intro x hx
          rw [List.foldl_cons]
          exact ihr _ (hstep items r hx)

theorem nodup_closeHelper (g : Grammar) :
    ∀ (fuel : Nat) (item : StateItem) (vis items : List StateItem),
      items.Nodup → (closeHelper g fuel item vis items).Nodup := by
  intro fuel
  induction fuel with
  | zero => exact fun item vis items h => h
  | succ fuel ih =>
    intro item vis items hnd
    rw [closeHelper_succ_eq]
    cases hnt : nextToken item with
    | none => exact hnd
    | some nt =>
      by_cases hterm : nt ∈ g.terminals
      · simp only [hterm, if_true]
        exact hnd
      · simp only [hterm, if_false]
        have hstep : ∀ (acc : List StateItem) (r : GrammarRule),
            acc.Nodup → (chStep g fuel vis (followOf g nt) acc r).Nodup := by
          intro acc r hacc
          unfold chStep
          split
          · exact nodup_osAdd _ hacc
          · exact ih _ _ _ (nodup_osAdd _ hacc)
        exact foldl_preserve _ List.Nodup (fun b a hb => hstep b a hb) _ _ hnd

theorem closeHelper_of_closed (g : Grammar) :
    ∀ (fuel : Nat) (item : StateItem) (vis items : List StateItem),
      ClosedItems g items → item ∈ items →
      closeHelper g fuel item vis items = items := by
  intro fuel
  induction fuel with
  | zero => exact fun item vis items _ _ => rfl
  | succ fuel ih =>
    intro item vis items hcl hitem
    rw [closeHelper_succ_eq]
    cases hnt : nextToken item with
    | none => rfl
    | some nt =>
      by_cases hterm : nt ∈ g.terminals
      · simp only [hterm, if_true]
      · simp only [hterm, if_false]
        have hexp : ∀ r ∈ getRulesByHead g.rules nt,
            (⟨r.head, r.body, followOf g nt, 0⟩ : StateItem) ∈ items := by
          intro r hr
          refine hcl item hitem _ ?_
          rw [itemExp_of_nonterminal hnt hterm]
          exact List.mem_map.mpr ⟨r, hr, rfl⟩
        generalize hrs : getRulesByHead g.rules nt = rs at hexp
        clear hrs
        induction rs with
        | nil => rfl
        | cons r rest ihr =>
          rw [List.foldl_cons]
          have hni : (⟨r.head, r.body, followOf g nt, 0⟩ : StateItem) ∈ items :=
            hexp r (List.mem_cons_self _ _)
          have hstep : chStep g fuel vis (followOf g nt) items r = items := by
            unfold chStep
            rw [osAdd_eq_of_mem hni]
            split
            · rfl
            · exact ih _ _ _ hcl hni
          rw [hstep]
          exact ihr (fun r2 h2 => hexp r2 (List.mem_cons_of_mem _ h2))

theorem InClos_join (g : Grammar) {P Q : StateItem → Prop}
    (h : ∀ y, P y → InClos g Q y) :
    ∀ {x : StateItem}, InClos g P x → InClos g Q x := by
  intro x hx
  induction hx with
  | base hb => exact h _ hb
  | step _ hnt hterm hr ihx => exact InClos.step ihx hnt hterm hr

theorem closeHelper_sound (g : Grammar) :
    ∀ (fuel : Nat) (item : StateItem) (vis items : List StateItem),
      item ∈ items →
      ∀ x ∈ closeHelper g fuel item vis items, InClos g (· ∈ items) x := by
  intro fuel
  induction fuel with
  | zero => exact fun item vis items _ x hx => InClos.base hx
  | succ fuel ih =>
    intro item vis items hitem
    rw [closeHelper_succ_eq]
    cases hnt : nextToken item with
    | none => exact fun x hx => InClos.base hx
    | some nt =>
      by_cases hterm : nt ∈ g.terminals
      · simp only [hterm, if_true]
        exact fun x hx => InClos.base hx
      · simp only [hterm, if_false]
        have hbase : InClos g (· ∈ items) item := InClos.base hitem
        have inner : ∀ (rs : List GrammarRule) (acc : List StateItem),
            (∀ r ∈ rs, r ∈ getRulesByHead g.rules nt) →
            (∀ y ∈ acc, InClos g (· ∈ items) y) →
            ∀ x ∈ rs.foldl (chStep g fuel vis (followOf g nt)) acc,
              InClos g (· ∈ items) x := by
          intro rs
          induction rs with
          | nil => exact fun acc _ hacc x hx => hacc x hx
          | cons r rest ihr =>
            intro acc hrs hacc x hx
            rw [List.foldl_cons] at hx
            have hniClos : InClos g (· ∈ items)
                (⟨r.head, r.body, followOf g nt, 0⟩ : StateItem) :=
              InClos.step hbase hnt hterm (hrs r (List.mem_cons_self _ _))
            have hacc1 : ∀ y ∈ osAdd acc ⟨r.head, r.body, followOf g nt, 0⟩,
                InClos g (· ∈ items) y := by
              intro y hy
              rcases mem_osAdd.mp hy with hy2 | rfl
              · exact hacc y hy2
              · exact hniClos
            have hstep : ∀ y ∈ chStep g fuel vis (followOf g nt) acc r,
                InClos g (· ∈ items) y := by
              intro y hy
              unfold chStep at hy
              split at hy
              · exact hacc1 y hy
              · have hsnd := ih _ _ _
                  (self_mem_osAdd acc ⟨r.head, r.body, followOf g nt, 0⟩) y hy
                exact InClos_join g hacc1 hsnd
            exact ihr _ (fun r2 h2 => hrs r2 (List.mem_cons_of_mem _ h2)) hstep x hx
        exact inner _ items (fun r hr => hr) (fun y hy => InClos.base hy)

theorem ClosedExcept_congr {g : Grammar} {E E' : StateItem → Prop}
    {items : List StateItem} (h : ∀ x, E x ↔ E' x)
    (hc : ClosedExcept g E items) : ClosedExcept g E' items := by
  intro it hit hne
  exact hc it hit (fun he => hne ((h it).mp he))

theorem vis_length_le {g : Grammar} {vis : List StateItem}
    (hnd : vis.Nodup) (hD : ∀ v ∈ vis, v ∈ dItems g) :
    vis.length ≤ g.rules.length := by
  have h1 : vis.length ≤ (dItems g).length := (hnd.subperm hD).length_le
  unfold dItems at h1
  simpa using h1

theorem closeHelper_complete (g : Grammar) :
    ∀ (fuel : Nat) (item : StateItem) (vis items : List StateItem)
      (X : StateItem → Prop),
      g.rules.length < fuel + vis.length →
      vis.Nodup → (∀ v ∈ vis, v ∈ dItems g) →
      item ∈ items →
      ClosedExcept g (fun x => X x ∨ x = item) items →
      (∀ v ∈ vis, X v ∨ v = item) →
      ClosedExcept g X (closeHelper g fuel item vis items) ∧
      ∀ x ∈ itemExp g item, x ∈ closeHelper g fuel item vis items := by
  intro fuel
  induction fuel with
  | zero =>
    intro item vis items X hfuel hnd hD _ _ _
    exfalso
    have := vis_length_le hnd hD
    omega
  | succ fuel ih =>
    intro item vis items X hfuel hnd hD hitem hCE hvX
    rw [closeHelper_succ_eq]
    cases hnt : nextToken item with
    | none =>
      refine ⟨?_, ?_⟩
      · intro it hit hX x hx
        by_cases heq : it = item
        · subst heq
          rw [itemExp_of_none hnt] at hx
          cases hx
        · exact hCE it hit (by rintro (h | h); exact hX h; exact heq h) x hx
      · intro x hx
        rw [itemExp_of_none hnt] at hx
        cases hx
    | some nt =>
      by_cases hterm : nt ∈ g.terminals
      · simp only [hterm, if_true]
        refine ⟨?_, ?_⟩
        · intro it hit hX x hx
          by_cases heq : it = item
          · subst heq
            rw [itemExp_of_terminal hnt hterm] at hx
            cases hx
          · exact hCE it hit (by rintro (h | h); exact hX h; exact heq h) x hx
        · intro x hx
          rw [itemExp_of_terminal hnt hterm] at hx
          cases hx
      · simp only [hterm, if_false]
        have inner : ∀ (rs : List GrammarRule) (acc : List StateItem),
            (∀ r ∈ rs, r ∈ getRulesByHead g.rules nt) →
            ClosedExcept g (fun x => X x ∨ x = item) acc →
            ClosedExcept g (fun x => X x ∨ x = item)
              (rs.foldl (chStep g fuel vis (followOf g nt)) acc) ∧
            (∀ r ∈ rs, (⟨r.head, r.body, followOf g nt, 0⟩ : StateItem) ∈
              rs.foldl (chStep g fuel vis (followOf g nt)) acc) ∧
            acc ⊆ rs.foldl (chStep g fuel vis (followOf g nt)) acc := by
          intro rs
          induction rs with
          | nil =>
            intro acc _ hacc
            exact ⟨hacc, by simp, fun x h => h⟩
          | cons r rest ihr =>
            intro acc hrs hacc
            rw [List.foldl_cons]
            have hrhead : r ∈ getRulesByHead g.rules nt :=
              hrs r (List.mem_cons_self _ _)
            have hniD : (⟨r.head, r.body, followOf g nt, 0⟩ : StateItem) ∈
                dItems g := mem_dItems_of_rulesByHead hrhead
            by_cases hvmem : (⟨r.head, r.body, followOf g nt, 0⟩ : StateItem) ∈ vis
            · have hstep : chStep g fuel vis (followOf g nt) acc r =
                  osAdd acc ⟨r.head, r.body, followOf g nt, 0⟩ := by
                unfold chStep
                rw [if_pos hvmem]
              rw [hstep]
              have hacc1 : ClosedExcept g (fun x => X x ∨ x = item)
                  (osAdd acc ⟨r.head, r.body, followOf g nt, 0⟩) := by
                intro it hit hX x hx
                rcases mem_osAdd.mp hit with hit2 | rfl
                · exact subset_osAdd _ _ (hacc it hit2 hX x hx)
                · exact absurd (hvX _ hvmem) hX
              obtain ⟨hA, hB, hC⟩ := ihr _
                (fun r2 h2 => hrs r2 (List.mem_cons_of_mem _ h2)) hacc1
              refine ⟨hA, ?_, fun x hx => hC (subset_osAdd _ _ hx)⟩
              intro r2 hr2
              rcases List.mem_cons.mp hr2 with rfl | h2
              · exact hC (self_mem_osAdd _ _)
              · exact hB r2 h2
            · have hstep : chStep g fuel vis (followOf g nt) acc r =
                  closeHelper g fuel ⟨r.head, r.body, followOf g nt, 0⟩
                    (vis ++ [⟨r.head, r.body, followOf g nt, 0⟩])
                    (osAdd acc ⟨r.head, r.body, followOf g nt, 0⟩) := by
                unfold chStep
                rw [if_neg hvmem]
              rw [hstep]
              have hnd1 : (vis ++ ([⟨r.head, r.body, followOf g nt, 0⟩] :
                  List StateItem)).Nodup := by
                refine List.Nodup.append hnd (List.nodup_singleton _) ?_
                intro x hx hx2
                rw [List.mem_singleton] at hx2
                subst hx2
                exact hvmem hx
              have hD1 : ∀ v ∈ vis ++ [⟨r.head, r.body, followOf g nt, 0⟩],
                  v ∈ dItems g := by
                intro v hv
                rcases List.mem_append.mp hv with hv2 | hv2
                · exact hD v hv2
                · rw [List.mem_singleton] at hv2
                  subst hv2
                  exact hniD
              have hfuel1 : g.rules.length <
                  fuel + (vis ++ ([⟨r.head, r.body, followOf g nt, 0⟩] :
                    List StateItem)).length := by
                rw [List.length_append, List.length_singleton]
                omega
              have hself : (⟨r.head, r.body, followOf g nt, 0⟩ : StateItem) ∈
                  osAdd acc ⟨r.head, r.body, followOf g nt, 0⟩ :=
                self_mem_osAdd _ _
              have hCE1 : ClosedExcept g
                  (fun x => (X x ∨ x = item) ∨
                    x = ⟨r.head, r.body, followOf g nt, 0⟩)
                  (osAdd acc ⟨r.head, r.body, followOf g nt, 0⟩) := by
                intro it hit hX x hx
                rcases mem_osAdd.mp hit with hit2 | rfl
                · exact subset_osAdd _ _
                    (hacc it hit2 (fun h => hX (Or.inl h)) x hx)
                · exact absurd (Or.inr rfl) hX
              have hvX1 : ∀ v ∈ vis ++ [⟨r.head, r.body, followOf g nt, 0⟩],
                  (X v ∨ v = item) ∨ v = ⟨r.head, r.body, followOf g nt, 0⟩ := by
                intro v hv
                rcases List.mem_append.mp hv with hv2 | hv2
                · exact Or.inl (hvX v hv2)
                · rw [List.mem_singleton] at hv2
                  exact Or.inr hv2
              obtain ⟨hclosed2, _⟩ := ih ⟨r.head, r.body, followOf g nt, 0⟩
                (vis ++ [⟨r.head, r.body, followOf g nt, 0⟩])
                (osAdd acc ⟨r.head, r.body, followOf g nt, 0⟩)
                (fun x => X x ∨ x = item) hfuel1 hnd1 hD1 hself hCE1 hvX1
              obtain ⟨hA, hB, hC⟩ := ihr _
                (fun r2 h2 => hrs r2 (List.mem_cons_of_mem _ h2)) hclosed2
              refine ⟨hA, ?_, ?_⟩
              · intro r2 hr2
                rcases List.mem_cons.mp hr2 with rfl | h2
                · exact hC (subset_closeHelper g fuel _ _ _ hself)
                · exact hB r2 h2
              · intro x hx
                exact hC (subset_closeHelper g fuel _ _ _ (subset_osAdd _ _ hx))
        obtain ⟨hA, hB, hC⟩ := inner (getRulesByHead g.rules nt) items
          (fun r hr => hr) hCE
        refine ⟨?_, ?_⟩
        · intro it hit hX x hx
          by_cases heq : it = item
          · subst heq
            rw [itemExp_of_nonterminal hnt hterm] at hx
            rcases List.mem_map.mp hx with ⟨r, hr, rfl⟩
            exact hB r hr
          · exact hA it hit (by rintro (h | h); exact hX h; exact heq h) x hx
        · intro x hx
          rw [itemExp_of_nonterminal hnt hterm] at hx
          rcases List.mem_map.mp hx with ⟨r, hr, rfl⟩
          exact hB r hr

theorem seedStep_extends (g : Grammar) (acc : List StateItem) (it : StateItem) :
    acc ⊆ seedStep g acc it := by
  unfold seedStep
  split
  · exact subset_closeHelper g _ _ _ _
  · exact fun x h => h

theorem foldl_seedStep_extends (g : Grammar) :
    ∀ (ls : List StateItem) (acc : List StateItem),
      acc ⊆ ls.foldl (seedStep g) acc := by
  intro ls
  induction ls with
  | nil => exact fun acc x h => h
  | cons it rest ih =>
    intro acc x hx
    rw [List.foldl_cons]
    exact ih _ (seedStep_extends g acc it hx)

theorem mem_mkState_of_seed (g : Grammar) (seeds : List StateItem) :
    ∀ x ∈ seeds, x ∈ (mkState g seeds).items := by
  intro x hx
  exact foldl_seedStep_extends g _ _
    ((mem_foldl_osAdd seeds [] x).mpr (Or.inr hx))

theorem mkState_closed (g : Grammar) (seeds : List StateItem) :
    ClosedItems g (mkState g seeds).items := by
  have general : ∀ (ls acc : List StateItem),
      (∀ it ∈ ls, it ∈ acc) → ClosedExcept g (· ∈ ls) acc →
      ClosedItems g (ls.foldl (seedStep g) acc) := by
    intro ls
    induction ls with
    | nil =>
      intro acc _ hCE it hit x hx
      exact hCE it hit (by simp) x hx
    | cons it rest ih =>
      intro acc hls hCE
      rw [List.foldl_cons]
      by_cases hpos : it.position < it.body.length
      · have hstep : seedStep g acc it =
            closeHelper g (g.rules.length + 1) it [] acc := by
          unfold seedStep
          rw [if_pos hpos]
        rw [hstep]
        have hCE0 : ClosedExcept g (fun x => x ∈ rest ∨ x = it) acc :=
          ClosedExcept_congr (fun x => by rw [List.mem_cons]; tauto) hCE
        obtain ⟨hCE', _⟩ := closeHelper_complete g (g.rules.length + 1) it []
          acc (· ∈ rest) (by simp) List.nodup_nil (by simp)
          (hls it (List.mem_cons_self _ _)) hCE0 (by simp)
        refine ih _ ?_ hCE'
        intro it2 hit2
        exact subset_closeHelper g _ _ _ _ (hls it2 (List.mem_cons_of_mem _ hit2))
      · have hstep : seedStep g acc it = acc := by
          unfold seedStep
          rw [if_neg hpos]
        rw [hstep]
        refine ih _ (fun it2 hit2 => hls it2 (List.mem_cons_of_mem _ hit2)) ?_
        intro it2 hit2 hne x hx
        by_cases heq : it2 = it
        · subst heq
          have hnone : nextToken it2 = Option.none := by
            unfold nextToken
            exact List.get?_eq_none.mpr (by omega)
          rw [itemExp_of_none hnone] at hx
          cases hx
        · refine hCE it2 hit2 ?_ x hx
          intro hmem
          rcases List.mem_cons.mp hmem with h | h
          · exact heq h
          · exact hne h
  exact general _ _ (fun it h => h) (fun it hit hne => absurd hit hne)

theorem mkState_sound (g : Grammar) (seeds : List StateItem) :
    ∀ x ∈ (mkState g seeds).items, InClos g (· ∈ seeds) x := by
  have general : ∀ (ls acc : List StateItem),
      (∀ it ∈ ls, it ∈ acc) → (∀ y ∈ acc, InClos g (· ∈ seeds) y) →
      ∀ x ∈ ls.foldl (seedStep g) acc, InClos g (· ∈ seeds) x := by
    intro ls
    induction ls with
    | nil => exact fun acc _ hacc x hx => hacc x hx
    | cons it rest ih =>
      intro acc hls hacc x hx
      rw [List.foldl_cons] at hx
      by_cases hpos : it.position < it.body.length
      · have hstep : seedStep g acc it =
            closeHelper g (g.rules.length + 1) it [] acc := by
          unfold seedStep
          rw [if_pos hpos]
        rw [hstep] at hx
        have hsound := closeHelper_sound g (g.rules.length + 1) it [] acc
          (hls it (List.mem_cons_self _ _))
        have hacc' : ∀ y ∈ closeHelper g (g.rules.length + 1) it [] acc,
            InClos g (· ∈ seeds) y :=
          fun y hy => InClos_join g hacc (hsound y hy)
        refine ih _ ?_ hacc' x hx
        intro it2 hit2
        exact subset_closeHelper g _ _ _ _ (hls it2 (List.mem_cons_of_mem _ hit2))
      · have hstep : seedStep g acc it = acc := by
          unfold seedStep
          rw [if_neg hpos]
        rw [hstep] at hx
        exact ih _ (fun it2 hit2 => hls it2 (List.mem_cons_of_mem _ hit2)) hacc x hx
  intro x hx
  refine general _ _ (fun it h => h) ?_ x hx
  intro y hy
  rcases (mem_foldl_osAdd seeds [] y).mp hy with h | h
  · cases h
  · exact InClos.base h

theorem mem_mkState_iff (g : Grammar) (seeds : List StateItem) (x : StateItem) :
    x ∈ (mkState g seeds).items ↔ InClos g (· ∈ seeds) x := by
  constructor
  · exact mkState_sound g seeds x
  · intro hx
    induction hx with
    | base hb => exact mem_mkState_of_seed g seeds _ hb
    | step _ hnt hterm hr ihx =>
      refine mkState_closed g seeds _ ihx _ ?_
      rw [itemExp_of_nonterminal hnt hterm]
      exact List.mem_map.mpr ⟨_, hr, rfl⟩

theorem mkState_nodup (g : Grammar) (seeds : List StateItem) :
    (mkState g seeds).items.Nodup := by
  have h0 : (seeds.foldl osAdd []).Nodup :=
    nodup_foldl_osAdd seeds [] List.nodup_nil
  refine foldl_preserve (seedStep g) List.Nodup ?_ _ _ h0
  intro acc it hacc
  unfold seedStep
  split
  · exact nodup_closeHelper g _ _ _ _ hacc
  · exact hacc

theorem mkState_idem (g : Grammar) (seeds : List StateItem) :
    mkState g ((mkState g seeds).items) = mkState g seeds := by
  have hnd := mkState_nodup g seeds
  have hcl := mkState_closed g seeds
  have h0 : ((mkState g seeds).items).foldl osAdd [] = (mkState g seeds).items :=
    foldl_osAdd_of_nodup _ hnd
  have hfold : ∀ (ls : List StateItem),
      (∀ it ∈ ls, it ∈ (mkState g seeds).items) →
      ls.foldl (seedStep g) (mkState g seeds).items = (mkState g seeds).items := by
    intro ls
    induction ls with
    | nil => exact fun _ => rfl
    | cons it rest ih =>
      intro hls
      rw [List.foldl_cons]
      have hstep : seedStep g (mkState g seeds).items it =
          (mkState g seeds).items := by
        unfold seedStep
        split
        · exact closeHelper_of_closed g _ _ _ _ hcl
            (hls it (List.mem_cons_self _ _))
        · rfl
      rw [hstep]
      exact ih (fun it2 h2 => hls it2 (List.mem_cons_of_mem _ h2))
  have hitems : (mkState g ((mkState g seeds).items)).items =
      (mkState g seeds).items := by
    show (((mkState g seeds).items).foldl osAdd []).foldl (seedStep g)
      (((mkState g seeds).items).foldl osAdd []) = (mkState g seeds).items
    rw [h0]
    exact hfold _ (fun it h => h)
  exact congrArg StateL.mk hitems

/-! ## Claim theorems: closure claims -/

/-- C4: at construction a State's item set is the closure of its seeds:
it contains the seeds; for every item in it whose next unconsumed symbol
is a nonterminal `nt` it contains, for every rule headed by `nt`, the
dot-0 item with lookahead `follow_sets[nt]`; and it contains nothing
beyond the seeds and items reachable by that expansion (items whose next
symbol is a terminal or whose dot is at the end contribute nothing, as
`InClos` steps exist only for nonterminal next symbols).  Stated for
grammars and seeds on which the Python closure cannot raise. -/
theorem c4_state_closure (g : Grammar) (seeds : List StateItem)
    (_hg : wfGrammar g = true) (_hs : wfSeeds g seeds = true) :
    (∀ s ∈ seeds, s ∈ (mkState g seeds).items) ∧
    (∀ it ∈ (mkState g seeds).items, ∀ nt, nextToken it = some nt →
      nt ∉ g.terminals → ∀ r ∈ getRulesByHead g.rules nt,
      (⟨r.head, r.body, followOf g nt, 0⟩ : StateItem) ∈
        (mkState g seeds).items) ∧
    (∀ x ∈ (mkState g seeds).items, InClos g (· ∈ seeds) x) := by
  refine ⟨mem_mkState_of_seed g seeds, ?_, mkState_sound g seeds⟩
  intro it hit nt hnt hterm r hr
  refine mkState_closed g seeds it hit _ ?_
  rw [itemExp_of_nonterminal hnt hterm]
  exact List.mem_map.mpr ⟨r, hr, rfl⟩

/-- Witness for C4 at the grammar `S -> a`, `S -> b`. -/
theorem c4_witness :
    wfGrammar gTwo = true ∧ wfSeeds gTwo [itemA] = true ∧
    itemA ∈ (mkState gTwo [itemA]).items :=
  ⟨by decide, by decide,
    (c4_state_closure gTwo [itemA] (by decide) (by decide)).1 itemA
      (by decide)⟩

/-- C9: closure is idempotent — constructing a State from the item set of
an already-constructed (hence closed) State reproduces the item set
exactly, even as an ordered list: every re-inserted item is already
present, so every `OrderedSet.add` and every `_close_helper` call leaves
the set unchanged. -/
theorem c9_closure_idempotent (g : Grammar) (seeds : List StateItem)
    (_hg : wfGrammar g = true) (_hs : wfSeeds g seeds = true) :
    mkState g ((mkState g seeds).items) = mkState g seeds :=
  mkState_idem g seeds

/-- Witness for C9 at the grammar `S -> a S`, `S -> a` with the kernel
item of its state 1. -/
theorem c9_witness :
    wfGrammar gRec = true ∧
    wfSeeds gRec [⟨"S", ["a", "S"], ["$"], 1⟩] = true ∧
    mkState gRec ((mkState gRec [⟨"S", ["a", "S"], ["$"], 1⟩]).items) =
      mkState gRec [⟨"S", ["a", "S"], ["$"], 1⟩] :=
  ⟨by decide, by decide,
    c9_closure_idempotent gRec [⟨"S", ["a", "S"], ["$"], 1⟩]
      (by decide) (by decide)⟩

/-- C1 amended: constructing a State from the same logical item set in
any insertion order yields States with the same member items (the item
lists are permutations of each other) and the same hash — the hash xors
the item hashes, which is order-independent for every item-hash
function — but the two States need not compare equal under
`State.__eq__`, which compares the insertion-ordered item lists. -/
theorem c1_amended (f : StateItem → Nat) (g : Grammar)
    (seeds1 seeds2 : List StateItem) (hperm : seeds1.Perm seeds2) :
    (mkState g seeds1).items.Perm (mkState g seeds2).items ∧
    stateHash f (mkState g seeds1) = stateHash f (mkState g seeds2) := by
  have hmem : ∀ x, x ∈ (mkState g seeds1).items ↔
      x ∈ (mkState g seeds2).items := by
    intro x
    rw [mem_mkState_iff, mem_mkState_iff]
    constructor
    · exact InClos_join g (fun y hy => InClos.base (hperm.subset hy))
    · exact InClos_join g (fun y hy => InClos.base (hperm.symm.subset hy))
  have hp : (mkState g seeds1).items.Perm (mkState g seeds2).items :=
    (List.perm_ext_iff_of_nodup (mkState_nodup g seeds1)
      (mkState_nodup g seeds2)).mpr hmem
  refine ⟨hp, ?_⟩
  unfold stateHash
  exact hp.foldl_eq'
    (fun x _ y _ z => by
      rw [Nat.xor_assoc, Nat.xor_assoc, Nat.xor_comm (f x) (f y)]) 0

/-- Witness for the amended C1: the two insertion orders of the seed
items over `S -> a`, `S -> b` yield permuted item lists with equal
hashes. -/
theorem c1_amended_witness :
    (mkState gTwo [itemB, itemA]).items.Perm
      (mkState gTwo [itemA, itemB]).items ∧
    stateHash (fun _ => 5) (mkState gTwo [itemB, itemA]) =
      stateHash (fun _ => 5) (mkState gTwo [itemA, itemB]) :=
  c1_amended (fun _ => 5) gTwo [itemB, itemA] [itemA, itemB] (by decide)

end Lodge
